import Mathlib

/-!
Verification of the transcript-driven audio segmentation engine
(`parseTranscriptFile`, `safeFilename`, `floatTo16BitPCM`, `encodeWAV`,
`extractSegments`, `makeZip` from the repository source).

The JavaScript source is shallowly embedded: strings become `String` /
`List Char`, float samples and timestamps become exact rationals `ℚ`
(every float32 value is a rational, and all arithmetic the code performs
on the values exercised here is exact in ℚ), byte buffers become
`List ℕ` with each entry in `[0, 256)`.  JavaScript regular expressions
are embedded as deterministic character-list parsers whose success and
captures coincide with the backtracking regex semantics on the anchored
patterns of the source (comments at each parser explain the
correspondence).  Character classes of the source regexes
(`\w`, `\d`, ASCII `\s`) are embedded through character codes.
-/

attribute [local semireducible] Rat.add Rat.mul Rat.sub Rat.inv

/-- Character code of a character, as a natural number. -/
def cn (c : Char) : ℕ := c.toNat

/-- JS `\d` (ASCII digit). -/
def digitB (c : Char) : Bool := decide (48 ≤ cn c ∧ cn c ≤ 57)

/-- ASCII letter, used for the `\w` class. -/
def alphaB (c : Char) : Bool :=
  decide ((65 ≤ cn c ∧ cn c ≤ 90) ∨ (97 ≤ cn c ∧ cn c ≤ 122))

/-- ASCII alphanumeric character. -/
def alnumB (c : Char) : Bool := alphaB c || digitB c

/-- JS whitespace class `\s` (ASCII part: space and `\t\n\v\f\r`). -/
def wsB (c : Char) : Bool := decide (cn c = 32 ∨ (9 ≤ cn c ∧ cn c ≤ 13))

/-- An underscore. -/
def underB (c : Char) : Bool := decide (cn c = 95)

/-- A period. -/
def dotB (c : Char) : Bool := decide (cn c = 46)

/-- A hyphen. -/
def hyphB (c : Char) : Bool := decide (cn c = 45)

/-- JS `trim()` on a character list: drop whitespace from both ends. -/
def trimChars (l : List Char) : List Char :=
  ((l.dropWhile wsB).reverse.dropWhile wsB).reverse

/-- One timestamped transcript entry (`{start, end?, text}` in the source);
the JS field `end` is embedded as `stop` because `end` is reserved. -/
structure TimedEntry where
  start : ℚ
  stop : Option ℚ
  text : String
deriving DecidableEq, Repr

/-- A canonical segment with both endpoints resolved
(`{start, end, text}`; JS `end` is `stop` here). -/
structure Segment where
  start : ℚ
  stop : ℚ
  text : String
deriving DecidableEq, Repr

/-- One extracted clip (`{filename, blob, text, start_time, end_time, duration}`
in `extractSegments`); the blob is the encoded WAV byte list. -/
structure Clip where
  filename : String
  blob : List ℕ
  startTime : ℚ
  endTime : ℚ
  duration : ℚ
  text : String
deriving DecidableEq, Repr

/-! ### Character-list parsing primitives for the regex cascade -/

/-- Parse exactly two digits (`\d{2}`) returning their value. -/
def twoDig : List Char → Option (ℕ × List Char)
  | a :: b :: r =>
    if digitB a && digitB b then some (10 * (cn a - 48) + (cn b - 48), r) else none
  | _ => none

/-- Parse exactly three digits (`\d{3}`) returning their value. -/
def threeDig : List Char → Option (ℕ × List Char)
  | a :: b :: c :: r =>
    if digitB a && digitB b && digitB c then
      some (100 * (cn a - 48) + 10 * (cn b - 48) + (cn c - 48), r)
    else none
  | _ => none

/-- Expect one given character. -/
def expectC (x : Char) : List Char → Option (List Char)
  | c :: r => if c = x then some r else none
  | [] => none

/-- Greedy `\d{1,2}` immediately followed by a non-digit requirement from the
caller; two digits are taken when available, else one.  This matches the
backtracking regex because every use site requires a `:` right after the
capture, so a three-digit prefix fails both ways. -/
def upTo2 : List Char → Option (ℕ × List Char)
  | c :: r =>
    if digitB c then
      match r with
      | d :: r2 => if digitB d then some (10 * (cn c - 48) + (cn d - 48), r2)
                   else some (cn c - 48, d :: r2)
      | [] => some (cn c - 48, [])
    else none
  | [] => none

/-- Greedy `\s*`. -/
def skipWs (l : List Char) : List Char := l.dropWhile wsB

/-- Parse `\d{2}:\d{2}:\d{2}` into its three captured numbers. -/
def hhmmssP (l : List Char) : Option ((ℕ × ℕ × ℕ) × List Char) :=
  (twoDig l).bind fun p1 =>
  (expectC ':' p1.2).bind fun r1 =>
  (twoDig r1).bind fun p2 =>
  (expectC ':' p2.2).bind fun r2 =>
  (twoDig r2).map fun p3 => ((p1.1, p2.1, p3.1), p3.2)

/-- Parse `\d{1,2}:\d{2}` into its two captured numbers. -/
def msP (l : List Char) : Option ((ℕ × ℕ) × List Char) :=
  (upTo2 l).bind fun p =>
  (expectC ':' p.2).bind fun r =>
  (twoDig r).map fun q => ((p.1, q.1), q.2)

/-- Greedy match of the JS number capture `\d+\.?\d*`, returning the matched
token and the rest.  The integer digits are mandatory. -/
def numToken (l : List Char) : Option (List Char × List Char) :=
  let ds := l.takeWhile digitB
  if ds.isEmpty then none
  else
    match l.drop ds.length with
    | '.' :: r2 =>
      let fs := r2.takeWhile digitB
      some (ds ++ '.' :: fs, r2.drop fs.length)
    | r => some (ds, r)

/-- Value of a digit string (as read by JS `Number` on a digit-only capture). -/
def natOfDigits (l : List Char) : ℕ := l.foldl (fun a c => 10 * a + (cn c - 48)) 0

/-- JS `Number` applied to a `\d+\.?\d*` capture: integer part plus decimal
fraction.  A trailing bare `.` contributes nothing. -/
def numQ (t : List Char) : ℚ :=
  let ip := t.takeWhile digitB
  let fp := t.drop (ip.length + 1)
  (natOfDigits ip : ℚ) + (natOfDigits fp : ℚ) / (10 : ℚ) ^ fp.length

/-- Source `hhmmssToSeconds`: `hh*3600 + mm*60 + ss`. -/
def hhmmssQ (t : ℕ × ℕ × ℕ) : ℚ :=
  (t.1 : ℚ) * 3600 + (t.2.1 : ℚ) * 60 + (t.2.2 : ℚ)

/-- Source `srtToSeconds`: `hhmmssToSeconds(time) + ms/1000`. -/
def srtQ (t : (ℕ × ℕ × ℕ) × ℕ) : ℚ := hhmmssQ t.1 + (t.2 : ℚ) / 1000

/-- Source `simpleToSeconds`: `m*60 + s`. -/
def msQ (t : ℕ × ℕ) : ℚ := (t.1 : ℚ) * 60 + (t.2 : ℚ)

/-- Trailing `\s*(.+)$` of a line, followed by the source's `.trim()` on the
capture.  The regex tail matches iff at least one character remains; the
trimmed capture always equals the trimmed remainder (when the remainder is
all whitespace, greedy `\s*` backtracks one character so the capture is a
single whitespace character, which trims to the empty string). -/
def textTailStar (rest : List Char) : Option String :=
  if rest.isEmpty then none else some (String.mk (trimChars rest))

/-- Trailing `\s+(.+)$` of a line, followed by `.trim()` on the capture: it
matches iff the remainder starts with whitespace and has at least two
characters (greedy `\s+` backtracks down to a single whitespace character
when needed), and the trimmed capture equals the trimmed remainder. -/
def textTailPlus (rest : List Char) : Option String :=
  match rest with
  | c :: r => if wsB c && !r.isEmpty then some (String.mk (trimChars (c :: r))) else none
  | [] => none

/-! ### The six recognized layouts, in source priority order -/

/-- Layout 1: `^\[(\d{2}:\d{2}:\d{2})\s*-\s*(\d{2}:\d{2}:\d{2})\]\s*(.+)$`. -/
def m1 (l : List Char) : Option TimedEntry :=
  (expectC '[' l).bind fun r0 =>
  (hhmmssP r0).bind fun p1 =>
  (expectC '-' (skipWs p1.2)).bind fun r1 =>
  (hhmmssP (skipWs r1)).bind fun p2 =>
  (expectC ']' p2.2).bind fun r2 =>
  (textTailStar r2).map fun txt => ⟨hhmmssQ p1.1, some (hhmmssQ p2.1), txt⟩

/-- Layout 2 timing line:
`^(\d{2}:\d{2}:\d{2},\d{3})\s*-->\s*(\d{2}:\d{2}:\d{2},\d{3})$`,
returning the two `srtToSeconds` conversions. -/
def srtP (l : List Char) : Option (ℚ × ℚ) :=
  (hhmmssP l).bind fun p1 =>
  (expectC ',' p1.2).bind fun r1 =>
  (threeDig r1).bind fun p2 =>
  (expectC '-' (skipWs p2.2)).bind fun r3 =>
  (expectC '-' r3).bind fun r4 =>
  (expectC '>' r4).bind fun r5 =>
  (hhmmssP (skipWs r5)).bind fun p3 =>
  (expectC ',' p3.2).bind fun r6 =>
  (threeDig r6).bind fun p4 =>
  if p4.2.isEmpty then some (srtQ (p1.1, p2.1), srtQ (p3.1, p4.1)) else none

/-- Layout 3: `^(\d{1,2}:\d{2})\s*-\s*(\d{1,2}:\d{2})\s*(.+)$`. -/
def m3 (l : List Char) : Option TimedEntry :=
  (msP l).bind fun p1 =>
  (expectC '-' (skipWs p1.2)).bind fun r1 =>
  (msP (skipWs r1)).bind fun p2 =>
  (textTailStar p2.2).map fun txt => ⟨msQ p1.1, some (msQ p2.1), txt⟩

/-- Layout 4: `^(\d+\.?\d*)\s*-\s*(\d+\.?\d*)\s*(.+)$`.  When the greedy
second number capture consumes the whole line, the regex backtracks: the
capture gives up its final character so that `(.+)` can match it, which
succeeds iff the token has at least two characters. -/
def m4 (l : List Char) : Option TimedEntry :=
  (numToken l).bind fun p1 =>
  (expectC '-' (skipWs p1.2)).bind fun r1 =>
  (numToken (skipWs r1)).bind fun p2 =>
  if !p2.2.isEmpty then
    some ⟨numQ p1.1, some (numQ p2.1), String.mk (trimChars p2.2)⟩
  else if 2 ≤ p2.1.length then
    some ⟨numQ p1.1, some (numQ p2.1.dropLast), String.mk [p2.1.getLastD '0']⟩
  else none

/-- Layout 5 bracket form: `^\[(\d{1,2}:\d{2})\]\s*(.+)$`. -/
def m5a (l : List Char) : Option TimedEntry :=
  (expectC '[' l).bind fun r0 =>
  (msP r0).bind fun p =>
  (expectC ']' p.2).bind fun r1 =>
  (textTailStar r1).map fun txt => ⟨msQ p.1, none, txt⟩

/-- Layout 5 paren form: `^\((\d{1,2}:\d{2})\)\s*(.+)$`. -/
def m5b (l : List Char) : Option TimedEntry :=
  (expectC '(' l).bind fun r0 =>
  (msP r0).bind fun p =>
  (expectC ')' p.2).bind fun r1 =>
  (textTailStar r1).map fun txt => ⟨msQ p.1, none, txt⟩

/-- Layout 5 bare form: `^(\d{1,2}:\d{2})\s+(.+)$`. -/
def m5c (l : List Char) : Option TimedEntry :=
  (msP l).bind fun p =>
  (textTailPlus p.2).map fun txt => ⟨msQ p.1, none, txt⟩

/-- Layout 6: `^(\d+\.?\d*)\s+(.+)$`.  No backtracking rescue exists here:
shrinking the number capture exposes a digit or period where `\s+` needs
whitespace. -/
def m6 (l : List Char) : Option TimedEntry :=
  (numToken l).bind fun p =>
  (textTailPlus p.2).map fun txt => ⟨numQ p.1, none, txt⟩

/-- One iteration of the source's matching cascade on a non-blank line.
`next` is the following (already trimmed) line, used only by the subtitle
timing branch, which pushes an entry iff `next` is non-blank and in either
case ends the cascade for this line (`continue`). -/
def classifyLine (l next : String) : Option TimedEntry :=
  match m1 l.data with
  | some e => some e
  | none =>
  match srtP l.data with
  | some se => if next ≠ "" then some ⟨se.1, some se.2, next⟩ else none
  | none =>
  match m3 l.data with
  | some e => some e
  | none =>
  match m4 l.data with
  | some e => some e
  | none =>
  match m5a l.data with
  | some e => some e
  | none =>
  match m5b l.data with
  | some e => some e
  | none =>
  match m5c l.data with
  | some e => some e
  | none => m6 l.data

/-- The source loop over lines.  The loop index only ever advances by one,
also in the two-line subtitle branch, so the lookahead line is processed
again by the next iteration; `next` is the head of the remaining lines. -/
def goLines : List String → List TimedEntry
  | [] => []
  | l :: rest =>
    if l = "" then goLines rest
    else
      match classifyLine l (rest.headD "") with
      | some e => e :: goLines rest
      | none => goLines rest

/-- Split on newline characters.  The source splits on `/\r?\n/` and then
trims every line; since `trim` removes `\r`, splitting on `\n` alone
composes to the same line list. -/
def splitNL : List Char → List (List Char)
  | [] => [[]]
  | c :: r =>
    if c = '\n' then [] :: splitNL r
    else
      match splitNL r with
      | h :: t => (c :: h) :: t
      | [] => [[c]]

/-- The `timestamped` list of `parseTranscriptFile`: split, trim, cascade. -/
def parseEntries (t : String) : List TimedEntry :=
  goLines ((splitNL t.data).map fun l => String.mk (trimChars l))

/-- The synthesis loop body: every entry's end becomes the next entry's
start; the final entry's end becomes its start plus 3.0 seconds. -/
def synthAll : List TimedEntry → List TimedEntry
  | [] => []
  | [e] => [{ e with stop := some (e.start + 3) }]
  | e :: f :: r => { e with stop := some f.start } :: synthAll (f :: r)

/-- The source's synthesis decision: synthesize ends iff the list is
non-empty and its first entry has no end, else pass the list through. -/
def synthStage (ts : List TimedEntry) : List TimedEntry :=
  match ts with
  | [] => []
  | e :: r => if e.stop = none then synthAll (e :: r) else e :: r

/-- Source `parseTranscriptFile`: parse the lines, then synthesize ends. -/
def parseTranscriptFile (t : String) : List TimedEntry :=
  synthStage (parseEntries t)

example : parseEntries "[01:02:03 - 01:02:05] hi" = [⟨3723, some 3725, "hi"⟩] := by decide
example : parseEntries "00:00:01,500 --> 00:00:02,250\nhi" = [⟨3/2, some (9/4), "hi"⟩] := by decide
example : parseEntries "1:02 - 1:05 hi" = [⟨62, some 65, "hi"⟩] := by decide
example : parseEntries "3 - 7.5 hi" = [⟨3, some (15/2), "hi"⟩] := by decide
example : parseEntries "[1:02] hi" = [⟨62, none, "hi"⟩] := by decide
example : parseEntries "(1:02) hi" = [⟨62, none, "hi"⟩] := by decide
example : parseEntries "1:02 hi" = [⟨62, none, "hi"⟩] := by decide
example : parseEntries "7 hi" = [⟨7, none, "hi"⟩] := by decide
example : parseEntries "00:00:01,000 --> 00:00:02,000\n5 hello" =
    [⟨1, some 2, "5 hello"⟩, ⟨5, none, "hello"⟩] := by decide
example : parseTranscriptFile "7 - 3 oops" = [⟨7, some 3, "oops"⟩] := by decide
example : parseTranscriptFile "[00:00:05 - 00:00:08] hello world" =
    [⟨5, some 8, "hello world"⟩] := by decide

/-! ### Filename sanitizer (`safeFilename`) -/

/-- The removed class `[<>:"/\\|?*\x00-\x1f]` of `safeFilename`. -/
def badB (c : Char) : Bool :=
  decide (cn c = 60 ∨ cn c = 62 ∨ cn c = 58 ∨ cn c = 34 ∨ cn c = 47 ∨
    cn c = 92 ∨ cn c = 124 ∨ cn c = 63 ∨ cn c = 42 ∨ cn c < 32)

/-- The kept class `[\w\s\-_.]` of the replacement step. -/
def keepB (c : Char) : Bool := alnumB c || underB c || wsB c || hyphB c || dotB c

/-- The separator class `[\-\s_]` collapsed to a single underscore. -/
def sepB (c : Char) : Bool := hyphB c || wsB c || underB c

/-- The class `[_.]` stripped from both ends. -/
def stripB (c : Char) : Bool := underB c || dotB c

/-- Replace of `/[\-\s_]+/g` by `_`: each maximal separator run becomes one
underscore.  The flag records whether the previous character was part of a
run already emitted. -/
def collapseA : Bool → List Char → List Char
  | _, [] => []
  | prev, c :: r =>
    if sepB c then
      if prev then collapseA true r else '_' :: collapseA true r
    else c :: collapseA false r

/-- Replace of `/^[_\.]+|[_\.]+$/g` by the empty string: strip leading and
trailing `[_.]` runs. -/
def stripEnds (l : List Char) : List Char :=
  ((l.dropWhile stripB).reverse.dropWhile stripB).reverse

/-- Character pipeline of `safeFilename` before the length fallback and the
25-character cut: remove forbidden characters, replace every character
outside `[\w\s\-_.]` by `_`, collapse separator runs, strip the ends. -/
def sanitizeCore (l : List Char) : List Char :=
  stripEnds (collapseA false ((l.filter fun c => !badB c).map
    fun c => if keepB c then c else '_'))

/-- Source `safeFilename`.  The leading `normalize('NFKD')` is delegated to
the platform and is the identity on ASCII strings; it is embedded as the
identity (the regex classes `\w` and the removed class are ASCII anyway,
so the embedding is faithful on ASCII inputs).  If the sanitized result is
shorter than 2 characters it is replaced by `audio_segment`, and the final
result is cut to 25 characters. -/
def safeFilename (s : String) : String :=
  String.mk ((if (sanitizeCore s.data).length < 2 then "audio_segment".data
              else sanitizeCore s.data).take 25)

/-- Characters that can appear in a sanitized name: ASCII alphanumerics,
underscore and period. -/
def goodB (c : Char) : Bool := alnumB c || underB c || dotB c

/-- No two adjacent characters of the list are both separators — the shape
left behind by the separator-run collapse. -/
def noTwoSeps (l : List Char) : Prop :=
  List.Chain' (fun a b => ¬(sepB a = true ∧ sepB b = true)) l

/-- Whether a string ends in a stripped separator (`_` or `.`). -/
def endsSep (s : String) : Bool :=
  match s.data.getLast? with
  | some c => stripB c
  | none => false

example : safeFilename "hello world" = "hello_world" := by decide
example : safeFilename "a" = "audio_segment" := by decide
example : safeFilename "aaaaaaaaaaaaaaaaaaaaaaaa_b" = "aaaaaaaaaaaaaaaaaaaaaaaa_" := by decide
example : safeFilename "aaaaaaaaaaaaaaaaaaaaaaaa_" = "aaaaaaaaaaaaaaaaaaaaaaaa" := by decide

/-! ### Container Encoder (`floatTo16BitPCM`, `encodeWAV`) -/

/-- Truncation toward zero of a rational, the integer conversion JS applies
inside `DataView.setInt16`. -/
def ratTrunc (q : ℚ) : ℤ := if 0 ≤ q then ⌊q⌋ else ⌈q⌉

/-- JS `ToInt16`: wrap an integer into `[-32768, 32768)`. -/
def wrap16 (n : ℤ) : ℤ :=
  if n % 65536 < 32768 then n % 65536 else n % 65536 - 65536

/-- Source `floatTo16BitPCM` per-sample conversion:
`s = Math.max(-1, Math.min(1, x))`, then `setInt16(s < 0 ? s * 0x8000 : s * 0x7FFF)`,
whose value conversion truncates toward zero and wraps to 16 bits. -/
def quantizeSample (x : ℚ) : ℤ :=
  wrap16 (ratTrunc (if max (-1) (min 1 x) < 0 then max (-1) (min 1 x) * 32768
                    else max (-1) (min 1 x) * 32767))

/-- Little-endian byte pair of a 16-bit signed value (two's complement). -/
def int16bytes (v : ℤ) : List ℕ :=
  [(v % 65536).toNat % 256, (v % 65536).toNat / 256]

/-- Source `floatTo16BitPCM` output: each sample as a little-endian signed
16-bit pair, in order. -/
def pcmBytes : List ℚ → List ℕ
  | [] => []
  | x :: r => int16bytes (quantizeSample x) ++ pcmBytes r

/-- Little-endian bytes of `setUint32` (wraps modulo `2^32`). -/
def le32 (v : ℕ) : List ℕ :=
  [v % 4294967296 % 256, v % 4294967296 / 256 % 256,
   v % 4294967296 / 65536 % 256, v % 4294967296 / 16777216 % 256]

/-- Little-endian bytes of `setUint16` (wraps modulo `2^16`). -/
def le16 (v : ℕ) : List ℕ := [v % 65536 % 256, v % 65536 / 256]

/-- The 44-byte RIFF/WAVE header written by `encodeWAV` for mono 16-bit PCM:
`"RIFF"`, chunk size `36 + dataLen`, `"WAVE"`, `"fmt "`, sub-chunk size 16,
format 1, channels 1, sample rate, byte rate `sampleRate*2`, block align 2,
bits 16, `"data"`, `dataLen`. -/
def wavHeader (dataLen : ℕ) (sampleRate : ℕ) : List ℕ :=
  [82, 73, 70, 70] ++ le32 (36 + dataLen) ++ [87, 65, 86, 69] ++
  [102, 109, 116, 32] ++ le32 16 ++ le16 1 ++ le16 1 ++
  le32 sampleRate ++ le32 (sampleRate * 2) ++ le16 2 ++ le16 16 ++
  [100, 97, 116, 97] ++ le32 dataLen

/-- Source `encodeWAV`: the header followed by the PCM data bytes
(`dataLen = samples.length * 2`). -/
def encodeWAV (samples : List ℚ) (sampleRate : ℕ) : List ℕ :=
  wavHeader (samples.length * 2) sampleRate ++ pcmBytes samples

/-! ### Segment Extractor (`extractSegments`) -/

/-- Zero-pad a number to three digits (`String(i+1).padStart(3, '0')`). -/
def pad3 (n : ℕ) : String :=
  let s := toString n
  if s.length < 3 then String.mk (List.replicate (3 - s.length) '0') ++ s else s

/-- Clip filename for the segment at zero-based index `i`:
``segment_${String(i+1).padStart(3,'0')}_${safeFilename(text.slice(0,30))}.wav``. -/
def segFilename (i : ℕ) (text : String) : String :=
  "segment_" ++ pad3 (i + 1) ++ "_" ++ safeFilename (String.mk (text.data.take 30)) ++ ".wav"

/-- Source `extractSegments` loop.  `i` is the running segment index; a
segment whose clamped index range is empty or inverted is skipped and the
loop continues with the next segment. -/
def extractGo (y : List ℚ) (sr : ℕ) : ℕ → List Segment → List Clip
  | _, [] => []
  | i, seg :: rest =>
    let s : ℤ := max 0 ⌊seg.start * (sr : ℚ)⌋
    let e : ℤ := min (y.length : ℤ) ⌊seg.stop * (sr : ℚ)⌋
    if e ≤ s then extractGo y sr (i + 1) rest
    else
      { filename := segFilename i seg.text
        blob := encodeWAV ((y.drop s.toNat).take (e.toNat - s.toNat)) sr
        startTime := seg.start
        endTime := seg.stop
        duration := seg.stop - seg.start
        text := seg.text } :: extractGo y sr (i + 1) rest

/-- Source `extractSegments y sr segments`. -/
def extractSegments (y : List ℚ) (sr : ℕ) (segs : List Segment) : List Clip :=
  extractGo y sr 0 segs

/-- Adapter from parsed entries to segments.  The source passes the entry
objects through unchanged; on every modelled scenario each entry carries an
end (entries without one would make the source compute with `undefined`,
outside the rational model), so entries lacking an end are dropped here. -/
def segmentsOf (es : List TimedEntry) : List Segment :=
  es.filterMap fun e => e.stop.map fun q => ⟨e.start, q, e.text⟩

/-! ### Archive Builder (`makeZip`) -/

/-- JS `Number.prototype.toFixed(2)` on a non-negative rational: the integer
`n` nearest to `x*100` (ties toward the larger), rendered with two decimal
digits. -/
def toFixed2Nonneg (q : ℚ) : String :=
  let n := (⌊q * 100 + 1 / 2⌋).toNat
  toString (n / 100) ++ "." ++
    (if n % 100 < 10 then "0" ++ toString (n % 100) else toString (n % 100))

/-- JS `toFixed(2)`: negative values format as `-` followed by the
formatting of the negation. -/
def toFixed2 (q : ℚ) : String :=
  if q < 0 then "-" ++ toFixed2Nonneg (-q) else toFixed2Nonneg q

/-- One manifest entry of `makeZip` for the clip at zero-based index `i`. -/
def metaEntry (i : ℕ) (f : Clip) : String :=
  "Segment " ++ toString (i + 1) ++ ": " ++ f.filename ++
  "\n  Text: " ++ f.text ++
  "\n  Start: " ++ toFixed2 f.startTime ++
  "s\n  End: " ++ toFixed2 f.endTime ++
  "s\n  Duration: " ++ toFixed2 f.duration ++ "s\n\n"

/-- Manifest preamble: `'Audio Segmentation Results\n' + '='.repeat(50) + '\n\n'`. -/
def metaHeader : String :=
  "Audio Segmentation Results\n" ++ String.mk (List.replicate 50 '=') ++ "\n\n"

/-- The manifest text accumulated by the `forEach` loop of `makeZip`. -/
def makeZipMeta (files : List Clip) : String :=
  files.enum.foldl (fun acc p => acc ++ metaEntry p.1 p.2) metaHeader

/-- The named file entries `zip.file(f.filename, f.blob)` of `makeZip`, in
original order (the archive container format itself is the external zip
library's concern; its logical content is this association list). -/
def makeZipFiles (files : List Clip) : List (String × List ℕ) :=
  files.map fun f => (f.filename, f.blob)

/-! ### Compliant WAV decoder (external collaborator) -/

/-- Read four bytes as a little-endian unsigned 32-bit value. -/
def readU32 : List ℕ → Option (ℕ × List ℕ)
  | b0 :: b1 :: b2 :: b3 :: r => some (b0 + 256 * b1 + 65536 * b2 + 16777216 * b3, r)
  | _ => none

/-- Read two bytes as a little-endian unsigned 16-bit value. -/
def readU16 : List ℕ → Option (ℕ × List ℕ)
  | b0 :: b1 :: r => some (b0 + 256 * b1, r)
  | _ => none

/-- Expect a literal byte sequence. -/
def expectBytes : List ℕ → List ℕ → Option (List ℕ)
  | [], l => some l
  | p :: ps, b :: bs => if b = p then expectBytes ps bs else none
  | _ :: _, [] => none

/-- Interpret an unsigned 16-bit value as two's-complement signed. -/
def toSigned16 (u : ℕ) : ℤ := if u < 32768 then (u : ℤ) else (u : ℤ) - 65536

/-- Read consecutive little-endian signed 16-bit samples to the end. -/
def readPCM : List ℕ → Option (List ℤ)
  | [] => some []
  | b0 :: b1 :: r => (readPCM r).map fun ss => toSigned16 (b0 + 256 * b1) :: ss
  | [_] => none

/-- Decoder stage one: the `"RIFF"` tag, the chunk size, the `"WAVE"` tag
and the `"fmt "` tag. -/
def decodeRiff (b : List ℕ) : Option (List ℕ) :=
  (expectBytes [82, 73, 70, 70] b).bind fun r1 =>
  (readU32 r1).bind fun c1 =>
  (expectBytes [87, 65, 86, 69] c1.2).bind fun r2 =>
  expectBytes [102, 109, 116, 32] r2

/-- Decoder stage two: the format sub-chunk — size 16, PCM format 1, one
channel, the sample rate, byte rate, block align, 16 bits per sample.
Returns the sample rate and the rest. -/
def decodeFmt (l : List ℕ) : Option (ℕ × List ℕ) :=
  (readU32 l).bind fun sz =>
  if sz.1 ≠ 16 then none else
  (readU16 sz.2).bind fun fmt =>
  if fmt.1 ≠ 1 then none else
  (readU16 fmt.2).bind fun ch =>
  if ch.1 ≠ 1 then none else
  (readU32 ch.2).bind fun sr =>
  (readU32 sr.2).bind fun br =>
  (readU16 br.2).bind fun ba =>
  (readU16 ba.2).bind fun bits =>
  if bits.1 ≠ 16 then none else some (sr.1, bits.2)

/-- Decoder stage three: the `"data"` tag, its length (which must match the
remaining bytes) and the little-endian signed 16-bit samples. -/
def decodeData (l : List ℕ) : Option (List ℤ) :=
  (expectBytes [100, 97, 116, 97] l).bind fun r4 =>
  (readU32 r4).bind fun dl =>
  if dl.2.length ≠ dl.1 then none else readPCM dl.2

/-- Modelled from the spec: the compliant WAV decoder (an external
collaborator, not part of the repository) reading the container layout of
section 4.5.  It returns the sample rate and the decoded quantized
samples. -/
def decodeWAV (b : List ℕ) : Option (ℕ × List ℤ) :=
  (decodeRiff b).bind fun r =>
  (decodeFmt r).bind fun p =>
  (decodeData p.2).map fun ss => (p.1, ss)

/-- Modelled from the spec: the compliant decoder's normalization of a
decoded 16-bit sample back to a float, inverting the stated PCM scaling
`round ... (s < 0 ? 32768 : 32767)` of section 4.5. -/
def dequantSample (v : ℤ) : ℚ :=
  if v < 0 then (v : ℚ) / 32768 else (v : ℚ) / 32767

/-! ### Claim-side renderings (spec wording) -/

/-- Synthesized end times per the spec wording: each entry's end is the
start of the next entry in sequence; the final entry's end is its start
plus 3.0 seconds. -/
def nextStops (es : List TimedEntry) : List ℚ :=
  (es.map TimedEntry.start).tail ++ [(es.map TimedEntry.start).getLastD 0 + 3]

/-- The synthesis result per the spec wording: every entry keeps its start
and text and receives the corresponding synthesized end. -/
def specSynth (es : List TimedEntry) : List TimedEntry :=
  (es.zip (nextStops es)).map fun p => ⟨p.1.start, some p.2, p.1.text⟩

/-- The extraction rule of the claim for the segment at index `i`:
`startIndex = max(0, floor(start*sampleRate))`,
`endIndex = min(bufferLength, floor(end*sampleRate))`; when
`endIndex ≤ startIndex` the segment produces no clip, otherwise exactly one
clip holding the samples `[startIndex, endIndex)`. -/
def extractBody (y : List ℚ) (sr : ℕ) (p : ℕ × Segment) : Option Clip :=
  if min (y.length : ℤ) ⌊p.2.stop * (sr : ℚ)⌋ ≤ max 0 ⌊p.2.start * (sr : ℚ)⌋ then none
  else some
    { filename := segFilename p.1 p.2.text
      blob := encodeWAV ((y.drop (max 0 ⌊p.2.start * (sr : ℚ)⌋).toNat).take
        ((min (y.length : ℤ) ⌊p.2.stop * (sr : ℚ)⌋).toNat -
          (max 0 ⌊p.2.start * (sr : ℚ)⌋).toNat)) sr
      startTime := p.2.start
      endTime := p.2.stop
      duration := p.2.stop - p.2.start
      text := p.2.text }

/-- Claim-side extraction: the indexed segments filtered through the
extraction rule, skipped segments contributing nothing. -/
def extractSpec (y : List ℚ) (sr : ℕ) (segs : List Segment) : List Clip :=
  segs.enum.filterMap (extractBody y sr)

/-- Concatenation of a list of strings. -/
def strConcat : List String → String
  | [] => ""
  | s :: r => s ++ strConcat r

example : quantizeSample (1/2) = 16383 := by decide
example : quantizeSample (3/8) = 12287 := by decide
example : quantizeSample (-1) = -32768 := by decide
example : quantizeSample 1 = 32767 := by decide
example : quantizeSample 0 = 0 := by decide
example : decodeWAV (encodeWAV [1/2, -1] 8000) = some (8000, [16383, -32768]) := by decide
example : segFilename 0 "hello world" = "segment_001_hello_world.wav" := by decide
example : toFixed2 (5 : ℚ) = "5.00" := by decide
example : toFixed2 (-1/1000 : ℚ) = "-0.00" := by decide

/-! ## Theorems -/

/-! ### Quantizer helpers -/

theorem wrap16_id (n : ℤ) (h1 : -32768 ≤ n) (h2 : n ≤ 32767) : wrap16 n = n := by
  unfold wrap16
  split <;> omega

theorem clamp_lb (x : ℚ) : -1 ≤ max (-1) (min 1 x) := le_max_left _ _

theorem clamp_ub (x : ℚ) : max (-1) (min 1 x) ≤ 1 :=
  max_le (by norm_num) (min_le_left _ _)

theorem ratTrunc_scale_bounds (s : ℚ) (hl : -1 ≤ s) (hu : s ≤ 1) :
    -32768 ≤ ratTrunc (if s < 0 then s * 32768 else s * 32767) ∧
    ratTrunc (if s < 0 then s * 32768 else s * 32767) ≤ 32767 := by
  unfold ratTrunc
  by_cases hs : s < 0
  · have hq0 : s * 32768 < 0 := by nlinarith
    have hql : (-32768 : ℚ) ≤ s * 32768 := by nlinarith
    simp only [if_pos hs, if_neg (not_le.mpr hq0)]
    constructor
    · have h := le_trans hql (Int.le_ceil (s * 32768))
      exact_mod_cast h
    · have h : ⌈s * 32768⌉ ≤ 0 := Int.ceil_le.mpr (by push_cast; linarith)
      omega
  · push_neg at hs
    have hq0 : 0 ≤ s * 32767 := by nlinarith
    have hqu : s * 32767 ≤ 32767 := by nlinarith
    simp only [if_neg (not_lt.mpr hs), if_pos hq0]
    constructor
    · have h : (0 : ℤ) ≤ ⌊s * 32767⌋ := Int.floor_nonneg.mpr hq0
      omega
    · calc ⌊s * 32767⌋ ≤ ⌊((32767 : ℤ) : ℚ)⌋ := Int.floor_le_floor (by push_cast; linarith)
        _ = 32767 := Int.floor_intCast _

theorem quantizeSample_bounds (x : ℚ) :
    -32768 ≤ quantizeSample x ∧ quantizeSample x ≤ 32767 := by
  unfold quantizeSample
  obtain ⟨h1, h2⟩ := ratTrunc_scale_bounds _ (clamp_lb x) (clamp_ub x)
  rw [wrap16_id _ h1 h2]
  exact ⟨h1, h2⟩

theorem quantizeSample_eq_trunc (x : ℚ) :
    quantizeSample x =
      ratTrunc (if max (-1) (min 1 x) < 0 then max (-1) (min 1 x) * 32768
                else max (-1) (min 1 x) * 32767) := by
  unfold quantizeSample
  obtain ⟨h1, h2⟩ := ratTrunc_scale_bounds _ (clamp_lb x) (clamp_ub x)
  exact wrap16_id _ h1 h2

/-- C1, counterexample: at the float32 sample `s = 0.375` the encoder stores
`12287` while the claimed `round(clamp(s,-1,1) * 32767) = round(12287.625)`
is `12288`; the stored value is not the rounded one. -/
theorem claimC1_counterexample :
    quantizeSample (3/8) = 12287 ∧
    round ((max (-1) (min 1 ((3 : ℚ)/8))) * 32767) = 12288 := by
  constructor
  · decide
  · norm_num [round_eq]

/-- C1 (amended): the Container Encoder converts each sample `s` to
`trunc(clamp(s,-1,1) * (s < 0 ? 32768 : 32767))` — the scaled clamped value
is truncated toward zero (not rounded to nearest) before being stored, and
the stored value always lies in the signed 16-bit range. -/
theorem claimC1 (x : ℚ) :
    quantizeSample x =
      ratTrunc (if max (-1) (min 1 x) < 0 then max (-1) (min 1 x) * 32768
                else max (-1) (min 1 x) * 32767) ∧
    -32768 ≤ quantizeSample x ∧ quantizeSample x ≤ 32767 :=
  ⟨quantizeSample_eq_trunc x, quantizeSample_bounds x⟩

/-- C3: each of the six recognized layouts, fed one well-formed example,
yields exactly one entry whose start (and end, for layouts 1 - 4) is the
stated conversion of the captured numbers, and no end for layouts 5 - 6. -/
theorem claimC3 :
    parseEntries "[01:02:03 - 01:02:05] hi" =
      [⟨1*3600 + 2*60 + 3, some (1*3600 + 2*60 + 5), "hi"⟩] ∧
    parseEntries "00:00:01,500 --> 00:00:02,250\nhi" =
      [⟨1 + (500 : ℚ)/1000, some (2 + (250 : ℚ)/1000), "hi"⟩] ∧
    parseEntries "1:02 - 1:05 hi" = [⟨1*60 + 2, some (1*60 + 5), "hi"⟩] ∧
    parseEntries "3 - 7 hi" = [⟨3, some 7, "hi"⟩] ∧
    parseEntries "[1:02] hi" = [⟨1*60 + 2, none, "hi"⟩] ∧
    parseEntries "7 hi" = [⟨7, none, "hi"⟩] := by
  refine ⟨by decide, by decide, by decide, by decide, by decide, by decide⟩

/-- C4, evaluation at the failing input: a subtitle timing line followed by
the text line `5 hello` produces the subtitle entry and then a second entry
parsed from the text line itself — the loop index is not advanced past the
text line, so it is matched again as a bare-number layout instead of being
consumed by the two-line block. -/
theorem claimC4_eval :
    parseEntries "00:00:01,000 --> 00:00:02,000\n5 hello" =
      [⟨1, some 2, "5 hello"⟩, ⟨5, none, "hello"⟩] ∧
    TimedEntry.mk 5 none "hello" ∈ parseEntries "00:00:01,000 --> 00:00:02,000\n5 hello" := by
  refine ⟨by decide, by decide⟩

/-! ### Segment Synthesizer (C5) -/

theorem getLastD_of_ne_nil {α : Type} (l : List α) (a d1 d2 : α) :
    (a :: l).getLastD d1 = (a :: l).getLastD d2 := by
  induction l generalizing a with
  | nil => rfl
  | cons b t ih => simpa using ih b

theorem synthAll_eq_specSynth : ∀ es : List TimedEntry, es ≠ [] → synthAll es = specSynth es := by
  intro es
  induction es with
  | nil => intro h; exact absurd rfl h
  | cons a r ih =>
    intro _
    cases r with
    | nil => rfl
    | cons b t =>
      have hrec := ih (by simp)
      simp only [synthAll] at *
      rw [hrec]
      simp [specSynth, nextStops, List.getLastD_cons]

/-- C5: when the first parsed entry lacks an end, the synthesizer gives
every entry the start of the next entry as its end and the final entry its
start plus 3.0 seconds; when the first entry has an explicit end the
sequence passes through unchanged; and the documented three-entry example
produces exactly the documented segments. -/
theorem claimC5 (e : TimedEntry) (r : List TimedEntry) :
    (e.stop = none → synthStage (e :: r) = specSynth (e :: r)) ∧
    (e.stop ≠ none → synthStage (e :: r) = e :: r) ∧
    synthStage [⟨0, none, "a"⟩, ⟨5, none, "b"⟩, ⟨9, none, "c"⟩] =
      [⟨0, some 5, "a"⟩, ⟨5, some 9, "b"⟩, ⟨9, some 12, "c"⟩] := by
  refine ⟨?_, ?_, by decide⟩
  · intro h
    simp only [synthStage, if_pos h]
    exact synthAll_eq_specSynth _ (by simp)
  · intro h
    simp only [synthStage, if_neg h]

/-- C5 witness: the synthesize branch at the documented example and the
pass-through branch at a one-entry list with an explicit end. -/
theorem claimC5_witness :
    synthStage [⟨0, none, "a"⟩, ⟨5, none, "b"⟩, ⟨9, none, "c"⟩] =
      specSynth [⟨0, none, "a"⟩, ⟨5, none, "b"⟩, ⟨9, none, "c"⟩] ∧
    synthStage [⟨1, some 2, "x"⟩] = [⟨1, some 2, "x"⟩] :=
  ⟨(claimC5 ⟨0, none, "a"⟩ [⟨5, none, "b"⟩, ⟨9, none, "c"⟩]).1 rfl,
   (claimC5 ⟨1, some 2, "x"⟩ []).2.1 (by decide)⟩

/-! ### Non-negativity of parsed times (C6) -/

theorem hhmmssQ_nonneg (t : ℕ × ℕ × ℕ) : 0 ≤ hhmmssQ t := by
  simp only [hhmmssQ]; positivity

theorem srtQ_nonneg (t : (ℕ × ℕ × ℕ) × ℕ) : 0 ≤ srtQ t := by
  have := hhmmssQ_nonneg t.1
  simp only [srtQ]; positivity

theorem msQ_nonneg (t : ℕ × ℕ) : 0 ≤ msQ t := by
  simp only [msQ]; positivity

theorem numQ_nonneg (t : List Char) : 0 ≤ numQ t := by
  simp only [numQ]; positivity

theorem m1_nonneg {l : List Char} {e : TimedEntry} (h : m1 l = some e) :
    0 ≤ e.start ∧ ∀ q, e.stop = some q → 0 ≤ q := by
  simp only [m1, Option.bind_eq_some, Option.map_eq_some'] at h
  obtain ⟨r0, _, p1, _, r1, _, p2, _, r2, _, txt, _, he⟩ := h
  subst he
  exact ⟨hhmmssQ_nonneg _, fun q hq => by
    simp only [Option.some.injEq] at hq
    exact hq ▸ hhmmssQ_nonneg _⟩

theorem srtP_nonneg {l : List Char} {se : ℚ × ℚ} (h : srtP l = some se) :
    0 ≤ se.1 ∧ 0 ≤ se.2 := by
  simp only [srtP, Option.bind_eq_some] at h
  obtain ⟨p1, _, r1, _, p2, _, r3, _, p3, _, r5, _, r6, _, p4, _, p5, _, hif⟩ := h
  split at hif
  · simp only [Option.some.injEq] at hif
    exact hif ▸ ⟨srtQ_nonneg _, srtQ_nonneg _⟩
  · exact absurd hif (by simp)

theorem m3_nonneg {l : List Char} {e : TimedEntry} (h : m3 l = some e) :
    0 ≤ e.start ∧ ∀ q, e.stop = some q → 0 ≤ q := by
  simp only [m3, Option.bind_eq_some, Option.map_eq_some'] at h
  obtain ⟨p1, _, r1, _, p2, _, txt, _, he⟩ := h
  subst he
  exact ⟨msQ_nonneg _, fun q hq => by
    simp only [Option.some.injEq] at hq
    exact hq ▸ msQ_nonneg _⟩

theorem m4_nonneg {l : List Char} {e : TimedEntry} (h : m4 l = some e) :
    0 ≤ e.start ∧ ∀ q, e.stop = some q → 0 ≤ q := by
  simp only [m4, Option.bind_eq_some] at h
  obtain ⟨p1, _, r1, _, p2, _, hif⟩ := h
  split at hif
  · simp only [Option.some.injEq] at hif
    exact hif ▸ ⟨numQ_nonneg _, fun q hq => by
      simp only [Option.some.injEq] at hq
      exact hq ▸ numQ_nonneg _⟩
  · split at hif
    · simp only [Option.some.injEq] at hif
      exact hif ▸ ⟨numQ_nonneg _, fun q hq => by
        simp only [Option.some.injEq] at hq
        exact hq ▸ numQ_nonneg _⟩
    · exact absurd hif (by simp)

theorem m5a_nonneg {l : List Char} {e : TimedEntry} (h : m5a l = some e) :
    0 ≤ e.start ∧ ∀ q, e.stop = some q → 0 ≤ q := by
  simp only [m5a, Option.bind_eq_some, Option.map_eq_some'] at h
  obtain ⟨r0, _, p, _, r1, _, txt, _, he⟩ := h
  subst he
  exact ⟨msQ_nonneg _, fun q hq => by simp at hq⟩

theorem m5b_nonneg {l : List Char} {e : TimedEntry} (h : m5b l = some e) :
    0 ≤ e.start ∧ ∀ q, e.stop = some q → 0 ≤ q := by
  simp only [m5b, Option.bind_eq_some, Option.map_eq_some'] at h
  obtain ⟨r0, _, p, _, r1, _, txt, _, he⟩ := h
  subst he
  exact ⟨msQ_nonneg _, fun q hq => by simp at hq⟩

theorem m5c_nonneg {l : List Char} {e : TimedEntry} (h : m5c l = some e) :
    0 ≤ e.start ∧ ∀ q, e.stop = some q → 0 ≤ q := by
  simp only [m5c, Option.bind_eq_some, Option.map_eq_some'] at h
  obtain ⟨p, _, txt, _, he⟩ := h
  subst he
  exact ⟨msQ_nonneg _, fun q hq => by simp at hq⟩

theorem m6_nonneg {l : List Char} {e : TimedEntry} (h : m6 l = some e) :
    0 ≤ e.start ∧ ∀ q, e.stop = some q → 0 ≤ q := by
  simp only [m6, Option.bind_eq_some, Option.map_eq_some'] at h
  obtain ⟨p, _, txt, _, he⟩ := h
  subst he
  exact ⟨numQ_nonneg _, fun q hq => by simp at hq⟩

theorem classifyLine_nonneg {l next : String} {e : TimedEntry}
    (h : classifyLine l next = some e) :
    0 ≤ e.start ∧ ∀ q, e.stop = some q → 0 ≤ q := by
  unfold classifyLine at h
  rcases h1 : m1 l.data with _ | e1
  case some =>
    rw [h1] at h
    obtain rfl := Option.some.inj h
    exact m1_nonneg h1
  rw [h1] at h; dsimp only at h
  rcases h2 : srtP l.data with _ | se
  case some =>
    rw [h2] at h; dsimp only at h
    by_cases hn : next = ""
    · rw [if_neg (by simp [hn])] at h
      exact absurd h (by simp)
    · rw [if_pos hn] at h
      obtain rfl := Option.some.inj h
      obtain ⟨hs1, hs2⟩ := srtP_nonneg h2
      exact ⟨hs1, fun q hq => by
        simp only [Option.some.injEq] at hq
        exact hq ▸ hs2⟩
  rw [h2] at h; dsimp only at h
  rcases h3 : m3 l.data with _ | e3
  case some =>
    rw [h3] at h
    obtain rfl := Option.some.inj h
    exact m3_nonneg h3
  rw [h3] at h; dsimp only at h
  rcases h4 : m4 l.data with _ | e4
  case some =>
    rw [h4] at h
    obtain rfl := Option.some.inj h
    exact m4_nonneg h4
  rw [h4] at h; dsimp only at h
  rcases h5 : m5a l.data with _ | e5
  case some =>
    rw [h5] at h
    obtain rfl := Option.some.inj h
    exact m5a_nonneg h5
  rw [h5] at h; dsimp only at h
  rcases h6 : m5b l.data with _ | e6
  case some =>
    rw [h6] at h
    obtain rfl := Option.some.inj h
    exact m5b_nonneg h6
  rw [h6] at h; dsimp only at h
  rcases h7 : m5c l.data with _ | e7
  case some =>
    rw [h7] at h
    obtain rfl := Option.some.inj h
    exact m5c_nonneg h7
  rw [h7] at h; dsimp only at h
  exact m6_nonneg h

theorem goLines_nonneg : ∀ (ls : List String) (e : TimedEntry), e ∈ goLines ls →
    0 ≤ e.start ∧ ∀ q, e.stop = some q → 0 ≤ q := by
  intro ls
  induction ls with
  | nil => intro e he; simp [goLines] at he
  | cons l rest ih =>
    intro e he
    by_cases hl : l = ""
    · rw [goLines, if_pos hl] at he
      exact ih e he
    · rw [goLines, if_neg hl] at he
      rcases hc : classifyLine l (rest.headD "") with _ | e1
      · rw [hc] at he
        exact ih e he
      · rw [hc] at he
        rcases List.mem_cons.mp he with h | h
        · exact h ▸ classifyLine_nonneg hc
        · exact ih e h

theorem synthAll_nonneg : ∀ es : List TimedEntry, (∀ e ∈ es, 0 ≤ e.start) →
    ∀ e ∈ synthAll es, 0 ≤ e.start ∧ ∀ q, e.stop = some q → 0 ≤ q := by
  intro es
  induction es with
  | nil => intro _ e he; simp [synthAll] at he
  | cons a r ih =>
    intro hs e he
    cases r with
    | nil =>
      simp only [synthAll, List.mem_singleton] at he
      subst he
      have ha := hs a (by simp)
      refine ⟨ha, fun q hq => ?_⟩
      simp only [Option.some.injEq] at hq
      rw [← hq]
      linarith
    | cons b t =>
      simp only [synthAll, List.mem_cons] at he
      rcases he with he | he
      · subst he
        have ha := hs a (by simp)
        have hb := hs b (by simp)
        refine ⟨ha, fun q hq => ?_⟩
        simp only [Option.some.injEq] at hq
        exact hq ▸ hb
      · exact ih (fun x hx => hs x (List.mem_cons_of_mem a hx)) e he

theorem synthStage_nonneg (ts : List TimedEntry)
    (hbase : ∀ x ∈ ts, 0 ≤ x.start ∧ ∀ q, x.stop = some q → 0 ≤ q) :
    ∀ e ∈ synthStage ts, 0 ≤ e.start ∧ ∀ q, e.stop = some q → 0 ≤ q := by
  cases ts with
  | nil => intro e he; simp [synthStage] at he
  | cons a r =>
    intro e he
    rw [synthStage] at he
    split at he
    · exact synthAll_nonneg (a :: r) (fun x hx => (hbase x hx).1) e he
    · exact hbase e he

/-- C6 (amended): every entry produced by `parseTranscriptFile` has a
non-negative start and, when an end is present, a non-negative end.  The
claimed invariant `end > start` does not hold for all produced segments:
inverted ranges pass through (see the counterexample) and are only skipped
later by the extractor. -/
theorem claimC6 (t : String) (e : TimedEntry) (he : e ∈ parseTranscriptFile t) :
    0 ≤ e.start ∧ ∀ q, e.stop = some q → 0 ≤ q := by
  unfold parseTranscriptFile at he
  exact synthStage_nonneg _ (fun x hx => goLines_nonneg _ x hx) e he

/-- C6, counterexample: the transcript line `7 - 3 oops` parses to a single
segment with `start = 7` and `end = 3`, so a produced Segment can violate
the claimed invariant `end > start`. -/
theorem claimC6_counterexample :
    parseTranscriptFile "7 - 3 oops" = [⟨7, some 3, "oops"⟩] ∧ ¬ ((3 : ℚ) > 7) :=
  ⟨by decide, by decide⟩

/-- C6 witness: the amended statement at the parse of `[1:02] hi`, whose
synthesized entry is `{start: 62, end: 65}`. -/
theorem claimC6_witness :
    0 ≤ (TimedEntry.mk 62 (some 65) "hi").start ∧
    ∀ q, (TimedEntry.mk 62 (some 65) "hi").stop = some q → 0 ≤ q :=
  claimC6 "[1:02] hi" ⟨62, some 65, "hi"⟩ (by decide)

/-! ### Segment Extractor refinement (C7) -/

theorem extractGo_eq (y : List ℚ) (sr : ℕ) :
    ∀ (segs : List Segment) (i : ℕ),
      extractGo y sr i segs = (List.enumFrom i segs).filterMap (extractBody y sr) := by
  intro segs
  induction segs with
  | nil => intro i; rfl
  | cons s r ih =>
    intro i
    simp only [extractGo, List.enumFrom, List.filterMap_cons, extractBody]
    split
    · exact ih (i + 1)
    · rw [ih (i + 1)]

/-- C7: the extractor maps segment `i` to
`startIndex = max(0, floor(start*sampleRate))` and
`endIndex = min(bufferLength, floor(end*sampleRate))`; whenever
`endIndex ≤ startIndex` (including `end = start` and `end < start`) the
segment yields no clip and the remaining segments are still processed,
otherwise exactly one clip holding the samples `[startIndex, endIndex)` is
emitted — extraction is a total function and never aborts. -/
theorem claimC7 (y : List ℚ) (sr : ℕ) (segs : List Segment) :
    extractSegments y sr segs = extractSpec y sr segs := by
  unfold extractSegments extractSpec List.enum
  exact extractGo_eq y sr segs 0

/-! ### Archive Builder (C9) -/

theorem strConcat_nil_right (a : String) : a ++ strConcat [] = a := by
  simp [strConcat]

theorem foldl_append_strConcat :
    ∀ (l : List (ℕ × Clip)) (acc : String),
      l.foldl (fun a p => a ++ metaEntry p.1 p.2) acc =
        acc ++ strConcat (l.map fun p => metaEntry p.1 p.2) := by
  intro l
  induction l with
  | nil => intro acc; simp [strConcat]
  | cons p r ih =>
    intro acc
    simp only [List.foldl_cons, List.map_cons, strConcat, ih, String.append_assoc]

/-- C9: the manifest is the fixed preamble followed by, for each clip in
original order, exactly one entry of the documented
`Segment N / Text / Start / End / Duration` form with two-decimal
formatting, and the archive holds every clip's bytes under its filename. -/
theorem claimC9 (files : List Clip) :
    makeZipMeta files =
      metaHeader ++ strConcat (files.enum.map fun p => metaEntry p.1 p.2) ∧
    ∀ f, f ∈ files → (f.filename, f.blob) ∈ makeZipFiles files := by
  constructor
  · unfold makeZipMeta
    exact foldl_append_strConcat files.enum metaHeader
  · intro f hf
    exact List.mem_map_of_mem _ hf

/-- C9 witness: archive membership for a concrete one-clip list. -/
theorem claimC9_witness :
    ("a.wav", ([0] : List ℕ)) ∈ makeZipFiles [⟨"a.wav", [0], 0, 1, 1, "t"⟩] :=
  (claimC9 [⟨"a.wav", [0], 0, 1, 1, "t"⟩]).2 ⟨"a.wav", [0], 0, 1, 1, "t"⟩
    (List.mem_cons_self _ _)

/-! ### Container round-trip (C2) -/

theorem pcmBytes_length : ∀ s : List ℚ, (pcmBytes s).length = s.length * 2 := by
  intro s
  induction s with
  | nil => rfl
  | cons x r ih => simp [pcmBytes, int16bytes, ih]; omega

theorem expectBytes_self : ∀ p r : List ℕ, expectBytes p (p ++ r) = some r := by
  intro p
  induction p with
  | nil => intro r; rfl
  | cons b q ih => intro r; simp [expectBytes, ih]

theorem readU32_le32 (v : ℕ) (r : List ℕ) (h : v < 4294967296) :
    readU32 (le32 v ++ r) = some (v, r) := by
  simp only [le32, List.cons_append, List.nil_append, readU32, Option.some.injEq, Prod.mk.injEq]
  exact ⟨by omega, trivial⟩

theorem readU16_le16 (v : ℕ) (r : List ℕ) (h : v < 65536) :
    readU16 (le16 v ++ r) = some (v, r) := by
  simp only [le16, List.cons_append, List.nil_append, readU16, Option.some.injEq, Prod.mk.injEq]
  exact ⟨by omega, trivial⟩

theorem toSigned16_int16 (v : ℤ) (h1 : -32768 ≤ v) (h2 : v ≤ 32767) :
    toSigned16 ((v % 65536).toNat % 256 + 256 * ((v % 65536).toNat / 256)) = v := by
  unfold toSigned16
  split <;> omega

theorem readPCM_pcmBytes : ∀ s : List ℚ, readPCM (pcmBytes s) = some (s.map quantizeSample) := by
  intro s
  induction s with
  | nil => rfl
  | cons x r ih =>
    obtain ⟨hb1, hb2⟩ := quantizeSample_bounds x
    simp only [pcmBytes, int16bytes, List.cons_append, List.nil_append, List.append_eq,
      readPCM, ih, Option.map_some', List.map_cons, Option.some.injEq, List.cons.injEq]
    exact ⟨toSigned16_int16 _ hb1 hb2, trivial⟩

theorem quantize_dequant (v : ℤ) (h1 : -32768 ≤ v) (h2 : v ≤ 32767) :
    quantizeSample (dequantSample v) = v := by
  unfold quantizeSample dequantSample
  by_cases hv : v < 0
  · rw [if_pos hv]
    have hvq : ((v : ℚ)) < 0 := by exact_mod_cast hv
    have hvq1 : ((-32768 : ℚ)) ≤ (v : ℚ) := by exact_mod_cast h1
    have hd1 : (-1 : ℚ) ≤ (v : ℚ) / 32768 := by
      rw [le_div_iff₀ (by norm_num : (0 : ℚ) < 32768)]
      linarith
    have hd0 : (v : ℚ) / 32768 < 0 := div_neg_of_neg_of_pos hvq (by norm_num)
    rw [min_eq_right (le_trans hd0.le (by norm_num)), max_eq_right hd1, if_pos hd0,
      div_mul_cancel₀ _ (by norm_num : (32768 : ℚ) ≠ 0)]
    unfold ratTrunc
    rw [if_neg (not_le.mpr hvq), Int.ceil_intCast]
    exact wrap16_id v h1 h2
  · push_neg at hv
    rw [if_neg (not_lt.mpr hv)]
    have hvq : (0 : ℚ) ≤ (v : ℚ) := by exact_mod_cast hv
    have hvq2 : ((v : ℚ)) ≤ 32767 := by exact_mod_cast h2
    have hd0 : (0 : ℚ) ≤ (v : ℚ) / 32767 := by positivity
    have hd1 : (v : ℚ) / 32767 ≤ 1 := by
      rw [div_le_one (by norm_num : (0 : ℚ) < 32767)]
      linarith
    rw [min_eq_right hd1, max_eq_right (le_trans (by norm_num) hd0),
      if_neg (not_lt.mpr hd0), div_mul_cancel₀ _ (by norm_num : (32767 : ℚ) ≠ 0)]
    unfold ratTrunc
    rw [if_pos hvq, Int.floor_intCast]
    exact wrap16_id v h1 h2

theorem pcmBytes_requant :
    ∀ s : List ℚ, pcmBytes ((s.map quantizeSample).map dequantSample) = pcmBytes s := by
  intro s
  induction s with
  | nil => rfl
  | cons x r ih =>
    obtain ⟨hb1, hb2⟩ := quantizeSample_bounds x
    simp only [List.map_cons, pcmBytes, ih, quantize_dequant _ hb1 hb2]

/-- C2: decoding the WAV container produced by the Container Encoder with
the compliant decoder recovers the sample rate and exactly the
16-bit-quantized samples, and encoding the decoded (normalized) samples
again produces byte-identical output — no further loss on a second
round-trip. -/
theorem claimC2 (s : List ℚ) (sr : ℕ) (h0 : 0 < sr) (h1 : sr * 2 < 4294967296)
    (h2 : 36 + s.length * 2 < 4294967296) :
    decodeWAV (encodeWAV s sr) = some (sr, s.map quantizeSample) ∧
    encodeWAV ((s.map quantizeSample).map dequantSample) sr = encodeWAV s sr := by
  have hsr : sr < 4294967296 := by omega
  have hdl : s.length * 2 < 4294967296 := by omega
  constructor
  · unfold decodeWAV encodeWAV wavHeader decodeRiff decodeFmt decodeData
    simp only [List.append_assoc]
    rw [expectBytes_self]
    simp only [Option.some_bind]
    rw [readU32_le32 _ _ (by omega)]
    simp only [Option.some_bind]
    rw [expectBytes_self]
    simp only [Option.some_bind]
    rw [expectBytes_self]
    simp only [Option.some_bind]
    rw [readU32_le32 _ _ (by norm_num)]
    simp only [Option.some_bind]
    rw [if_neg (by decide)]
    rw [readU16_le16 _ _ (by norm_num)]
    simp only [Option.some_bind]
    rw [if_neg (by decide)]
    rw [readU16_le16 _ _ (by norm_num)]
    simp only [Option.some_bind]
    rw [if_neg (by decide)]
    rw [readU32_le32 _ _ hsr]
    simp only [Option.some_bind]
    rw [readU32_le32 _ _ h1]
    simp only [Option.some_bind]
    rw [readU16_le16 _ _ (by norm_num)]
    simp only [Option.some_bind]
    rw [readU16_le16 _ _ (by norm_num)]
    simp only [Option.some_bind]
    rw [if_neg (by decide)]
    simp only [Option.some_bind]
    rw [expectBytes_self]
    simp only [Option.some_bind]
    rw [readU32_le32 _ _ hdl]
    simp only [Option.some_bind]
    rw [pcmBytes_length, if_neg (by omega), readPCM_pcmBytes]
    rfl
  · unfold encodeWAV
    rw [pcmBytes_requant]
    simp only [List.length_map]

/-- C2 witness: the round-trip at the two-sample buffer `[0.5, -1]` and
sample rate 8000. -/
theorem claimC2_witness :
    decodeWAV (encodeWAV [(1 : ℚ)/2, -1] 8000) =
      some (8000, ([(1 : ℚ)/2, -1].map quantizeSample)) ∧
    encodeWAV ((([(1 : ℚ)/2, -1].map quantizeSample).map dequantSample)) 8000 =
      encodeWAV [(1 : ℚ)/2, -1] 8000 :=
  claimC2 [(1 : ℚ)/2, -1] 8000 (by decide) (by decide) (by decide)

/-! ### End-to-end scenario (C8) -/

theorem pcmBytes_replicate : ∀ n : ℕ, pcmBytes (List.replicate n 0) = List.replicate (2 * n) 0 := by
  intro n
  induction n with
  | zero => rfl
  | succ k ih =>
    rw [List.replicate_succ, pcmBytes, ih,
      show int16bytes (quantizeSample 0) = [0, 0] from by decide,
      show 2 * (k + 1) = (2 * k + 1) + 1 from by ring,
      List.replicate_succ, List.replicate_succ]
    rfl

theorem extractGo_singleton (y : List ℚ) (sr : ℕ) (i : ℕ) (seg : Segment) :
    extractGo y sr i [seg] =
      if min (y.length : ℤ) ⌊seg.stop * (sr : ℚ)⌋ ≤ max 0 ⌊seg.start * (sr : ℚ)⌋ then []
      else [{ filename := segFilename i seg.text
              blob := encodeWAV ((y.drop (max 0 ⌊seg.start * (sr : ℚ)⌋).toNat).take
                ((min (y.length : ℤ) ⌊seg.stop * (sr : ℚ)⌋).toNat -
                  (max 0 ⌊seg.start * (sr : ℚ)⌋).toNat)) sr
              startTime := seg.start
              endTime := seg.stop
              duration := seg.stop - seg.start
              text := seg.text }] := by
  simp only [extractGo]


set_option maxRecDepth 8192 in
/-- C8: the transcript `[00:00:05 - 00:00:08] hello world` with a 20-second
mono 16000 Hz all-zero buffer yields exactly one clip named
`segment_001_hello_world.wav` of duration 3.0 s whose WAV bytes are the
44-byte header followed by 96000 zero data bytes; the header's RIFF size
field is `36 + 96000`, its data-length field is `96000`, and the container
is `44 + 96000` bytes long. -/
theorem claimC8 :
    extractSegments (List.replicate 320000 0) 16000
        (segmentsOf (parseTranscriptFile "[00:00:05 - 00:00:08] hello world")) =
      [{ filename := "segment_001_hello_world.wav"
         blob := wavHeader 96000 16000 ++ List.replicate 96000 0
         startTime := 5, endTime := 8, duration := 3, text := "hello world" }] ∧
    (wavHeader 96000 16000).take 8 = [82, 73, 70, 70] ++ le32 (36 + 96000) ∧
    (wavHeader 96000 16000).drop 40 = le32 96000 ∧
    (wavHeader 96000 16000 ++ List.replicate 96000 0).length = 44 + 96000 := by
  refine ⟨?_, by decide, by decide, ?_⟩
  · have hp : segmentsOf (parseTranscriptFile "[00:00:05 - 00:00:08] hello world") =
        [⟨5, 8, "hello world"⟩] := by decide
    rw [hp]
    show extractGo (List.replicate 320000 (0 : ℚ)) 16000 0 [⟨5, 8, "hello world"⟩] = _
    rw [extractGo_singleton]
    rw [List.length_replicate]
    rw [if_neg (by decide)]
    rw [show (max 0 ⌊(Segment.mk 5 8 "hello world").start * ((16000 : ℕ) : ℚ)⌋).toNat = 80000
        from by decide,
      show (min ((320000 : ℕ) : ℤ) ⌊(Segment.mk 5 8 "hello world").stop * ((16000 : ℕ) : ℚ)⌋).toNat = 128000
        from by decide,
      List.drop_replicate, List.take_replicate]
    rw [show min (128000 - 80000) (320000 - 80000) = 48000 from by norm_num]
    rw [show encodeWAV (List.replicate 48000 (0 : ℚ)) 16000 =
        wavHeader 96000 16000 ++ List.replicate 96000 0 from by
      rw [encodeWAV, List.length_replicate, pcmBytes_replicate]]
    simp only [List.cons.injEq, Clip.mk.injEq, and_true, true_and]
    exact ⟨by decide, by decide⟩
  · rw [List.length_append, List.length_replicate,
      show (wavHeader 96000 16000).length = 44 from by decide]

/-! ### Filename sanitizer idempotence (C10) -/

theorem cn_inj {c d : Char} (h : cn c = cn d) : c = d := by
  cases c with | mk cv hv => cases d with | mk dv hd =>
  simp only [cn, Char.toNat] at h
  congr 1
  exact UInt32.toNat.inj h

theorem goodB_not_bad {c : Char} (h : goodB c = true) : badB c = false := by
  simp only [goodB, alnumB, alphaB, digitB, underB, dotB, badB, Bool.or_eq_true,
    decide_eq_true_eq, decide_eq_false_iff_not] at *
  omega

theorem goodB_keep {c : Char} (h : goodB c = true) : keepB c = true := by
  simp only [goodB, alnumB, alphaB, digitB, underB, dotB, keepB, wsB, hyphB, Bool.or_eq_true,
    decide_eq_true_eq] at *
  tauto

theorem goodB_sep_under {c : Char} (h : goodB c = true) (hs : sepB c = true) : c = '_' := by
  refine cn_inj ?_
  rw [show cn '_' = 95 from by decide]
  simp only [goodB, alnumB, alphaB, digitB, underB, dotB, sepB, wsB, hyphB, Bool.or_eq_true,
    decide_eq_true_eq] at *
  omega

theorem keepB_not_sep_good {c : Char} (h : keepB c = true) (hs : sepB c = false) :
    goodB c = true := by
  simp only [goodB, alnumB, alphaB, digitB, underB, dotB, keepB, sepB, wsB, hyphB,
    Bool.or_eq_true, decide_eq_true_eq, Bool.or_eq_false_iff, decide_eq_false_iff_not] at *
  tauto

theorem collapseA_chars : ∀ (b : Bool) (l : List Char) (c : Char), c ∈ collapseA b l →
    c = '_' ∨ (c ∈ l ∧ sepB c = false) := by
  intro b l
  induction l generalizing b with
  | nil => intro c hc; simp [collapseA] at hc
  | cons d r ih =>
    intro c hc
    by_cases hd : sepB d = true
    · rw [collapseA, if_pos hd] at hc
      cases b with
      | true =>
        rcases ih true c hc with h | ⟨hm, hs⟩
        · exact Or.inl h
        · exact Or.inr ⟨List.mem_cons_of_mem d hm, hs⟩
      | false =>
        rcases List.mem_cons.mp hc with h | h
        · exact Or.inl h
        · rcases ih true c h with h2 | ⟨hm, hs⟩
          · exact Or.inl h2
          · exact Or.inr ⟨List.mem_cons_of_mem d hm, hs⟩
    · rw [collapseA, if_neg hd] at hc
      rcases List.mem_cons.mp hc with h | h
      · exact Or.inr ⟨h ▸ List.mem_cons_self d r, h ▸ Bool.of_not_eq_true hd⟩
      · rcases ih false c h with h2 | ⟨hm, hs⟩
        · exact Or.inl h2
        · exact Or.inr ⟨List.mem_cons_of_mem d hm, hs⟩

theorem collapseA_head_true : ∀ (l : List Char) (c : Char),
    (collapseA true l).head? = some c → sepB c = false := by
  intro l
  induction l with
  | nil => intro c hc; simp [collapseA] at hc
  | cons d r ih =>
    intro c hc
    by_cases hd : sepB d = true
    · rw [collapseA, if_pos hd] at hc
      exact ih c hc
    · rw [collapseA, if_neg hd] at hc
      simp only [List.head?_cons, Option.some.injEq] at hc
      exact hc ▸ Bool.of_not_eq_true hd

theorem collapseA_chain : ∀ l : List Char,
    noTwoSeps (collapseA false l) ∧ noTwoSeps (collapseA true l) := by
  intro l
  induction l with
  | nil => exact ⟨List.chain'_nil, List.chain'_nil⟩
  | cons d r ih =>
    by_cases hd : sepB d = true
    · constructor
      · rw [collapseA, if_pos hd]
        refine List.chain'_cons'.mpr ⟨?_, ih.2⟩
        intro y hy hcon
        exact absurd hcon.2 (by simp [collapseA_head_true r y hy])
      · rw [collapseA, if_pos hd]
        exact ih.2
    · constructor
      · rw [collapseA, if_neg hd]
        refine List.chain'_cons'.mpr ⟨?_, ih.1⟩
        intro y _ hcon
        exact absurd hcon.1 (by simp [Bool.of_not_eq_true hd])
      · rw [collapseA, if_neg hd]
        refine List.chain'_cons'.mpr ⟨?_, ih.1⟩
        intro y _ hcon
        exact absurd hcon.1 (by simp [Bool.of_not_eq_true hd])

theorem collapseA_id : ∀ l : List Char, noTwoSeps l →
    (∀ c ∈ l, sepB c = true → c = '_') →
    collapseA false l = l ∧
      ((∀ c, l.head? = some c → sepB c = false) → collapseA true l = l) := by
  intro l
  induction l with
  | nil => intro _ _; exact ⟨rfl, fun _ => rfl⟩
  | cons d r ih =>
    intro hch hsep
    have hch2 : noTwoSeps r := (List.chain'_cons'.mp hch).2
    have hsep2 : ∀ c ∈ r, sepB c = true → c = '_' :=
      fun c hc => hsep c (List.mem_cons_of_mem d hc)
    by_cases hd : sepB d = true
    · have hdu : d = '_' := hsep d (List.mem_cons_self d r) hd
      have hhead : ∀ c, r.head? = some c → sepB c = false := by
        intro c hc
        have := (List.chain'_cons'.mp hch).1 c hc
        by_contra hcon
        exact this ⟨hd, Bool.of_not_eq_false hcon⟩
      constructor
      · rw [collapseA, if_pos hd, (ih hch2 hsep2).2 hhead, hdu]
        simp
      · intro hh
        exact absurd hd (by simp [hh d rfl])
    · constructor
      · rw [collapseA, if_neg hd, (ih hch2 hsep2).1]
      · intro _
        rw [collapseA, if_neg hd, (ih hch2 hsep2).1]

theorem dropWhile_head_not (p : Char → Bool) : ∀ (l : List Char) (c : Char),
    (l.dropWhile p).head? = some c → p c = false := by
  intro l
  induction l with
  | nil => intro c hc; simp [List.dropWhile] at hc
  | cons d r ih =>
    intro c hc
    by_cases hd : p d = true
    · rw [List.dropWhile_cons_of_pos hd] at hc
      exact ih c hc
    · rw [List.dropWhile_cons_of_neg hd] at hc
      simp only [List.head?_cons, Option.some.injEq] at hc
      exact hc ▸ Bool.of_not_eq_true hd

theorem dropWhile_id_of_head (p : Char → Bool) (l : List Char)
    (h : ∀ c, l.head? = some c → p c = false) : l.dropWhile p = l := by
  cases l with
  | nil => rfl
  | cons d r => exact List.dropWhile_cons_of_neg (by simp [h d rfl])

theorem getLast?_of_dropWhile (p : Char → Bool) (l : List Char) (c : Char)
    (h : (l.dropWhile p).getLast? = some c) : l.getLast? = some c := by
  obtain ⟨pre, hpre⟩ := List.dropWhile_suffix p (l := l)
  rw [← hpre, List.getLast?_append, h]
  rfl

theorem stripEnds_head (l : List Char) (c : Char)
    (h : (stripEnds l).head? = some c) : stripB c = false := by
  unfold stripEnds at h
  rw [List.head?_reverse] at h
  have h2 := getLast?_of_dropWhile stripB _ _ h
  rw [List.getLast?_reverse] at h2
  exact dropWhile_head_not stripB _ _ h2

theorem stripEnds_id (l : List Char)
    (hh : ∀ c, l.head? = some c → stripB c = false)
    (hl : ∀ c, l.getLast? = some c → stripB c = false) : stripEnds l = l := by
  unfold stripEnds
  rw [dropWhile_id_of_head stripB l hh]
  rw [dropWhile_id_of_head stripB l.reverse (by
    intro c hc
    rw [List.head?_reverse] at hc
    exact hl c hc)]
  exact List.reverse_reverse l

theorem noTwoSeps_reverse {l : List Char} (h : noTwoSeps l) : noTwoSeps l.reverse := by
  unfold noTwoSeps at *
  rw [List.chain'_reverse]
  exact h.imp (fun a b hab hcon => hab ⟨hcon.2, hcon.1⟩)

theorem stripEnds_chain {l : List Char} (h : noTwoSeps l) : noTwoSeps (stripEnds l) := by
  unfold stripEnds
  refine noTwoSeps_reverse (List.Chain'.suffix ?_ (List.dropWhile_suffix stripB))
  exact noTwoSeps_reverse (List.Chain'.suffix h (List.dropWhile_suffix stripB))

theorem stripEnds_mem {l : List Char} {c : Char} (h : c ∈ stripEnds l) : c ∈ l := by
  unfold stripEnds at h
  rw [List.mem_reverse] at h
  have h2 := ((List.dropWhile_suffix stripB).sublist.subset) h
  rw [List.mem_reverse] at h2
  exact ((List.dropWhile_suffix stripB).sublist.subset) h2

theorem take_head? (l : List Char) : (l.take 25).head? = l.head? := by
  cases l <;> rfl

theorem sanitizeCore_props (l : List Char) :
    (∀ c ∈ sanitizeCore l, goodB c = true) ∧ noTwoSeps (sanitizeCore l) ∧
      (∀ c, (sanitizeCore l).head? = some c → stripB c = false) := by
  unfold sanitizeCore
  set m := (l.filter fun c => !badB c).map fun c => if keepB c then c else '_' with hm
  have hmk : ∀ c ∈ m, keepB c = true := by
    intro c hc
    rw [hm] at hc
    obtain ⟨d, _, hd⟩ := List.mem_map.mp hc
    by_cases hk : keepB d = true
    · rw [if_pos hk] at hd
      exact hd ▸ hk
    · rw [if_neg hk] at hd
      rw [← hd]
      decide
  refine ⟨?_, stripEnds_chain (collapseA_chain m).1, fun c hc => stripEnds_head _ c hc⟩
  intro c hc
  have hc2 := stripEnds_mem hc
  rcases collapseA_chars false m c hc2 with h | ⟨hmem, hsep⟩
  · rw [h]; decide
  · exact keepB_not_sep_good (hmk c hmem) hsep

theorem sanitizeCore_id (l : List Char)
    (hg : ∀ c ∈ l, goodB c = true) (hch : noTwoSeps l)
    (hh : ∀ c, l.head? = some c → stripB c = false)
    (hl : ∀ c, l.getLast? = some c → stripB c = false) : sanitizeCore l = l := by
  unfold sanitizeCore
  have hfilter : (l.filter fun c => !badB c) = l :=
    List.filter_eq_self.mpr (fun c hc => by simp [goodB_not_bad (hg c hc)])
  have hmap : (l.map fun c => if keepB c then c else '_') = l := by
    have : ∀ c ∈ l, (if keepB c then c else '_') = c :=
      fun c hc => if_pos (goodB_keep (hg c hc))
    calc (l.map fun c => if keepB c then c else '_') = l.map id := List.map_congr_left this
      _ = l := List.map_id l
  rw [hfilter, hmap,
    (collapseA_id l hch (fun c hc hs => goodB_sep_under (hg c hc) hs)).1,
    stripEnds_id l hh hl]

/-- C10, counterexample: sanitizing a 26-character name whose 25th character
is an underscore leaves a trailing underscore (the end-strip runs before the
25-character cut), and a second application removes it — `safeFilename` is
not idempotent. -/
theorem claimC10_counterexample :
    safeFilename (safeFilename "aaaaaaaaaaaaaaaaaaaaaaaa_b") ≠
      safeFilename "aaaaaaaaaaaaaaaaaaaaaaaa_b" := by decide

/-- C10 (amended): `safeFilename` is idempotent at every input whose
sanitized name does not end in `_` or `.`; only when the final 25-character
truncation leaves such a trailing separator does a second application
differ (by stripping it). -/
theorem claimC10 (s : String) (h : endsSep (safeFilename s) = false) :
    safeFilename (safeFilename s) = safeFilename s := by
  by_cases hlen : (sanitizeCore s.data).length < 2
  · have ht : safeFilename s = "audio_segment" := by
      unfold safeFilename
      rw [if_pos hlen]
      decide
    rw [ht]
    decide
  · have htd : (safeFilename s).data = (sanitizeCore s.data).take 25 := by
      unfold safeFilename
      rw [if_neg hlen]
  
    obtain ⟨hg, hch, hh⟩ := sanitizeCore_props s.data
    have hg25 : ∀ c ∈ (sanitizeCore s.data).take 25, goodB c = true :=
      fun c hc => hg c (List.take_subset _ _ hc)
    have hch25 : noTwoSeps ((sanitizeCore s.data).take 25) :=
      List.Chain'.prefix hch (List.take_prefix 25 _)
    have hh25 : ∀ c, ((sanitizeCore s.data).take 25).head? = some c → stripB c = false := by
      simp only [take_head?]
      exact hh
    have hl25 : ∀ c, ((sanitizeCore s.data).take 25).getLast? = some c → stripB c = false := by
      intro c hc
      unfold endsSep at h
      rw [htd, hc] at h
      simpa using h
    have hlen25 : ¬ ((sanitizeCore s.data).take 25).length < 2 := by
      rw [List.length_take]
      omega
    have hcore := sanitizeCore_id ((sanitizeCore s.data).take 25) hg25 hch25 hh25 hl25
    have hts : safeFilename s = String.mk ((sanitizeCore s.data).take 25) := by
      simp only [safeFilename]
      rw [if_neg hlen]
    have hfix : safeFilename (String.mk ((sanitizeCore s.data).take 25)) =
        String.mk ((sanitizeCore s.data).take 25) := by
      unfold safeFilename
      dsimp only
      rw [hcore, if_neg hlen25, List.take_of_length_le (by rw [List.length_take]; omega)]
    rw [hts, hfix]

/-- C10 witness: idempotence at `hello`, whose sanitized name `hello` has no
trailing separator. -/
theorem claimC10_witness :
    endsSep (safeFilename "hello") = false ∧
    safeFilename (safeFilename "hello") = safeFilename "hello" :=
  ⟨by decide, claimC10 "hello" (by decide)⟩
